import Mathlib

/-!
# Shallow embedding of the rlwe-bdhk polynomial-ring / blind-signature engine

This file models, in Lean, the C++ sources of the repository:

* `src/include/polynomial.h`, `src/src/polynomial.cpp` — the class `Polynomial`
  (ring elements of Z[x]/(x^d + 1) with coefficients mod q, stored as
  `std::vector<uint64_t>`), its arithmetic operators, `polySignal` and
  `setCoefficients`;
* `src/src/rlwe.cpp` — the class `RLWESignature` (blind-signature protocol:
  `computeBlindedMessage`, `blindSign`, `computeSignature`, `verify`,
  `messageToPolynomial`, `hashToPolynomial`).

Machine arithmetic is modelled explicitly: `uint64_t` values are natural
numbers below 2^64 and every C++ operation that can wrap is given its
wrapping semantics (`% 2^64`); the `int64_t` intermediates of
`Polynomial::mod` and `operator-` are modelled on ℤ with explicit
two's-complement conversions.  (Signed overflow is undefined behaviour in
C++; it is modelled here as two's-complement wraparound, the behaviour of
every mainstream target.)

The SHA-256 primitive is not part of the repository's sources (the class
`SHA256` in `src/src/sha256.cpp` only forwards to OpenSSL's EVP interface);
following the specification, which declares the hash an opaque external
collaborator with a fixed 32-byte digest, functions that hash are
parametrised by an abstract `digest : List ℕ → List ℕ`.
-/

namespace RLWE

/-- Reinterpretation of a `uint64_t` value as `int64_t`
(the implicit conversion applied when a `uint64_t` is passed to
`Polynomial::mod(int64_t, uint64_t)`): two's complement. -/
def i64ofU64 (c : ℕ) : ℤ := if c < 2 ^ 63 then (c : ℤ) else (c : ℤ) - 2 ^ 64

/-- Reinterpretation of an `int64_t` value as `uint64_t` (conversion mod 2^64). -/
def u64ofI64 (r : ℤ) : ℕ := (r % (2 ^ 64 : ℤ)).toNat

/-- Two's-complement wraparound of a signed 64-bit intermediate. -/
def i64wrap (z : ℤ) : ℤ := (z + 2 ^ 63) % (2 ^ 64 : ℤ) - 2 ^ 63

/-- `uint64_t` subtraction `a - b` (wraps modulo 2^64). -/
def u64sub (a b : ℕ) : ℕ := (a + 2 ^ 64 - b) % 2 ^ 64

/-- `uint64_t` addition `a + b` (wraps modulo 2^64). -/
def u64add (a b : ℕ) : ℕ := (a + b) % 2 ^ 64

/-- `Polynomial::mod` (polynomial.h):
`static uint64_t mod(int64_t x, uint64_t m) { int64_t r = x % (int64_t)m;
 return r < 0 ? r + m : r; }`.
C++ `%` on signed integers is truncated remainder (`Int.tmod`); the final
`r + m` mixes `int64_t` and `uint64_t`, so it is performed as `uint64_t`
addition. -/
def cppMod (x : ℤ) (m : ℕ) : ℕ :=
  let r : ℤ := Int.tmod x (i64ofU64 m)
  if r < 0 then u64add (u64ofI64 r) m else r.toNat

/-- The C++ class `Polynomial` (named `Poly` here only because Mathlib's
`Polynomial` is needed below): a coefficient vector, the ring dimension
field `ring_dim` and the modulus `q`.  The source stores `ring_dim`
separately from `coeffs.size()`; both fields are kept. -/
structure Poly where
  coeffs : List ℕ
  ring_dim : ℕ
  modulus : ℕ
deriving DecidableEq

/-- Error kinds of the engine (spec §7).  The source throws
`std::invalid_argument` in both cases; the message distinguishes the
ring-mismatch case ("Polynomials must be in the same ring") from the
wrong-length case in `setCoefficients`. -/
inductive PolyError
  | ringMismatch
  | invalidArgument
deriving DecidableEq

deriving instance DecidableEq for Except

/-- `Polynomial(size_t n, uint64_t q)` — the zero polynomial. -/
def Poly.mk0 (n q : ℕ) : Poly := ⟨List.replicate n 0, n, q⟩

/-- `Polynomial(const std::vector<uint64_t>&, uint64_t q)` — construction
from an explicit coefficient vector.  NOTE: the source stores the vector
verbatim; no reduction mod q is performed. -/
def Poly.ofVec (c : List ℕ) (q : ℕ) : Poly := ⟨c, c.length, q⟩

/-- Body of `operator+` after the ring guard: coefficient-wise
`(coeffs[i] + other.coeffs[i]) % modulus` (the `uint64_t` sum wraps
mod 2^64 before `% modulus`). -/
def Poly.addCore (a b : Poly) : Poly :=
  ⟨(List.range a.ring_dim).map fun i =>
      (a.coeffs.getD i 0 + b.coeffs.getD i 0) % 2 ^ 64 % a.modulus,
   a.ring_dim, a.modulus⟩

/-- Body of `operator-` (binary) after the ring guard:
`mod((int64_t)coeffs[i] - (int64_t)other.coeffs[i], modulus)`. -/
def Poly.subCore (a b : Poly) : Poly :=
  ⟨(List.range a.ring_dim).map fun i =>
      cppMod (i64wrap (i64ofU64 (a.coeffs.getD i 0) - i64ofU64 (b.coeffs.getD i 0)))
        a.modulus,
   a.ring_dim, a.modulus⟩

/-- `operator-` (unary negation): `coeffs[i] == 0 ? 0 : modulus - coeffs[i]`. -/
def Poly.negCore (a : Poly) : Poly :=
  ⟨(List.range a.ring_dim).map fun i =>
      if a.coeffs.getD i 0 = 0 then 0 else u64sub a.modulus (a.coeffs.getD i 0),
   a.ring_dim, a.modulus⟩

/-- The (i, j) index pairs of the schoolbook double loop in `operator*`,
in source order (`i` outer, `j` inner, both over `[0, d)`). -/
def mulPairs (d : ℕ) : List (ℕ × ℕ) :=
  (List.range d).flatMap fun i => (List.range d).map fun j => (i, j)

/-- One accumulation step of the schoolbook loop:
`prod = (coeffs[i] * other.coeffs[j]) % modulus` (the `uint64_t` product
wraps mod 2^64), then `temp[i+j] = (temp[i+j] + prod) % modulus`. -/
def mulStep (a b : Poly) (t : List ℕ) (ij : ℕ × ℕ) : List ℕ :=
  let prod := a.coeffs.getD ij.1 0 * b.coeffs.getD ij.2 0 % 2 ^ 64 % a.modulus
  t.set (ij.1 + ij.2) ((t.getD (ij.1 + ij.2) 0 + prod) % 2 ^ 64 % a.modulus)

/-- Body of `operator*` after the ring guard: schoolbook product into
`temp` (length 2d), then reduction modulo x^d + 1:
`result[i] = mod((int64_t)temp[i] - (int64_t)temp[i+d], modulus)`.
The source's `while (higher_degree < temp.size())` loop executes exactly
once per i, because `temp.size() == 2d` and `i + d < 2d ≤ i + 2d`
for `i < d`. -/
def Poly.mulCore (a b : Poly) : Poly :=
  let d := a.ring_dim
  let q := a.modulus
  let temp := (mulPairs d).foldl (mulStep a b) (List.replicate (2 * d) 0)
  ⟨(List.range d).map fun i =>
      cppMod (i64wrap (i64ofU64 (temp.getD i 0) - i64ofU64 (temp.getD (i + d) 0))) q,
   d, q⟩

/-- `operator*(uint64_t scalar)`: coefficient-wise
`(coeffs[i] * scalar) % modulus` (the `uint64_t` product wraps mod 2^64). -/
def Poly.scalarMul (a : Poly) (k : ℕ) : Poly :=
  ⟨(List.range a.ring_dim).map fun i => a.coeffs.getD i 0 * k % 2 ^ 64 % a.modulus,
   a.ring_dim, a.modulus⟩

/-- `operator+` including the ring guard
(`throw std::invalid_argument("Polynomials must be in the same ring")`). -/
def Poly.add (a b : Poly) : Except PolyError Poly :=
  if a.ring_dim ≠ b.ring_dim ∨ a.modulus ≠ b.modulus then .error .ringMismatch
  else .ok (a.addCore b)

/-- `operator-` including the ring guard. -/
def Poly.sub (a b : Poly) : Except PolyError Poly :=
  if a.ring_dim ≠ b.ring_dim ∨ a.modulus ≠ b.modulus then .error .ringMismatch
  else .ok (a.subCore b)

/-- `operator*` including the ring guard. -/
def Poly.mul (a b : Poly) : Except PolyError Poly :=
  if a.ring_dim ≠ b.ring_dim ∨ a.modulus ≠ b.modulus then .error .ringMismatch
  else .ok (a.mulCore b)

/-- Loop body of `Polynomial::polySignal` for one coefficient
(`half = modulus / 2`; all subexpressions are `uint64_t` arithmetic):
`dist_to_zero = min(coeff, modulus - coeff)`;
`dist_to_half = min(coeff >= half ? coeff - half : half - coeff,
                    coeff >= half ? modulus - coeff + half
                                  : modulus - half + coeff)`;
result `(dist_to_zero <= dist_to_half) ? 0 : half`. -/
def signalCoeff (q c : ℕ) : ℕ :=
  let half := q / 2
  let dz := min c (u64sub q c)
  let dh := min (if half ≤ c then u64sub c half else u64sub half c)
                (if half ≤ c then u64add (u64sub q c) half
                 else u64add (u64sub q half) c)
  if dz ≤ dh then 0 else half

/-- `Polynomial::polySignal` (polynomial.cpp): round each coefficient to
0 or q/2, whichever is closer in the cyclic group Z/qZ; ties go to 0. -/
def Poly.polySignal (p : Poly) : Poly :=
  ⟨(List.range p.ring_dim).map fun i => signalCoeff p.modulus (p.coeffs.getD i 0),
   p.ring_dim, p.modulus⟩

/-- `Polynomial::setCoefficients`: throws `std::invalid_argument` on a
length mismatch, otherwise stores the vector and reduces each entry with
`mod(c, modulus)` — note the entry, a `uint64_t`, is implicitly converted
to the `int64_t` parameter of `mod`. -/
def Poly.setCoefficients (p : Poly) (v : List ℕ) : Except PolyError Poly :=
  if v.length ≠ p.ring_dim then .error .invalidArgument
  else .ok ⟨v.map fun c => cppMod (i64ofU64 c) p.modulus, p.ring_dim, p.modulus⟩

/-- The 8 bits of a byte, most significant first
(`(byte >> j) & 1` for `j = 7 … 0`). -/
def byteBits (b : ℕ) : List ℕ := (List.range 8).map fun j => b / 2 ^ (7 - j) % 2

/-- `RLWESignature::messageToPolynomial`: message bits, MSB-first per byte,
become 0/1 coefficients; missing positions stay 0; excess bits are dropped. -/
def messageToPolynomial (n q : ℕ) (msg : List ℕ) : Poly :=
  ⟨((msg.flatMap byteBits) ++ List.replicate n 0).take n, n, q⟩

/-- The four bytes of the `uint32_t` counter as laid out in memory on a
little-endian host (the source reinterprets `&counter` as bytes). -/
def ctrBytes (c : ℕ) : List ℕ :=
  [c % 2 ^ 8, c / 2 ^ 8 % 2 ^ 8, c / 2 ^ 16 % 2 ^ 8, c / 2 ^ 24 % 2 ^ 8]

/-- `RLWESignature::hashToPolynomial`: counter-mode expansion.  Block
`ctr` is `digest (ctrBytes ctr ++ msg)`; its bits, MSB-first per byte, map
to coefficients `bit ? q/2 : 0` until `n` coefficients exist.  Each block
contributes 256 bits (the digest is 32 bytes — SHA-256), so the source's
while loop runs `⌈n / 256⌉` times. -/
def hashToPolynomial (digest : List ℕ → List ℕ) (n q : ℕ) (msg : List ℕ) : Poly :=
  let bits := (List.range ((n + 255) / 256)).flatMap fun ctr =>
    (digest (ctrBytes ctr ++ msg)).flatMap byteBits
  ⟨(bits.take n).map fun bit => if bit = 1 then q / 2 else 0, n, q⟩

/-- `RLWESignature::computeBlindedMessage`: samples a Gaussian blinding
factor `r` (passed here explicitly), hashes the secret to `Y`, and returns
`(Y + a*r, r)`.  `a` is the scheme's public generator. -/
def computeBlindedMessage (digest : List ℕ → List ℕ) (n q : ℕ) (a r : Poly)
    (secret : List ℕ) : Poly × Poly :=
  ((hashToPolynomial digest n q secret).addCore (a.mulCore r), r)

/-- `RLWESignature::blindSign`: `s * blindedMessage + e1` with fresh
Gaussian `e1` (passed here explicitly);  `s` is the scheme's secret key. -/
def blindSign (s e1 blinded : Poly) : Poly := (s.mulCore blinded).addCore e1

/-- `RLWESignature::computeSignature`: `blindSignature - blindingFactor * publicKey`. -/
def computeSignature (blindSignature blindingFactor publicKey : Poly) : Poly :=
  blindSignature.subCore (blindingFactor.mulCore publicKey)

/-- `RLWESignature::verify` (blind scheme): hash the message to `z`,
compute `expected = s * z`, round both the signature and `expected` with
`polySignal`, then compare coefficients (the loop over
`actual_coeffs.size()` with early `break` decides exactly whether all
compared coefficients agree).  No exception path exists: a mismatch
produces the normal return value `false`. -/
def verify (digest : List ℕ → List ℕ) (n q : ℕ) (s : Poly) (msg : List ℕ)
    (sig : Poly) : Bool :=
  let z := hashToPolynomial digest n q msg
  let expected := s.mulCore z
  let actualSignal := sig.polySignal
  let expectedSignal := expected.polySignal
  (List.range actualSignal.coeffs.length).all fun i =>
    actualSignal.coeffs.getD i 0 == expectedSignal.coeffs.getD i 0

/-- Modelled from the spec: `RLWESignature::sign` (direct scheme) is
declared in `rlwe.h` but its definition is not among the sources; spec
§4.4 defines it as `z ← messageToPolynomial(message)`; sample fresh
`r, e1, e2`; `u = a*r + e1`; `v = b*r + e2 + z*⌊q/2⌋`.  The random draws
are explicit arguments. -/
def sign (n q : ℕ) (a b r e1 e2 : Poly) (msg : List ℕ) : Poly × Poly :=
  let z := messageToPolynomial n q msg
  ((a.mulCore r).addCore e1,
   ((b.mulCore r).addCore e2).addCore (z.scalarMul (q / 2)))

/-- A concrete admissible digest function (constant 32 zero bytes), used
to instantiate the abstract hash in closed witness/counterexample
statements. -/
def zeroDigest : List ℕ → List ℕ := fun _ => List.replicate 32 0

/-! ## Specification-side definitions

These follow the wording of the spec / claims, for comparison with the
source-translated definitions above. -/

/-- Spec wording: "sum of `a[j]*b[k]` over `j+k=m`" with `j, k` ranging
over `[0, d)` — one term per `j`, with `k = m - j` when that index is
admissible.  Exact (unbounded) natural-number arithmetic. -/
def convSum (a b : List ℕ) (d m : ℕ) : ℕ :=
  ∑ j ∈ Finset.range d,
    if j ≤ m ∧ m - j < d then a.getD j 0 * b.getD (m - j) 0 else 0

/-- Spec wording: "coefficient `i` of the result is (sum of `a[j]*b[k]`
over `j+k=i`, minus sum of `a[j]*b[k]` over `j+k=i+d`) mod q", the
length-2d schoolbook product folded by x^d ≡ -1, with exact integer
arithmetic and a canonical (floor-mod) result in `[0, q)`. -/
def negacyclicRef (a b : List ℕ) (d q i : ℕ) : ℕ :=
  (((convSum a b d i : ℤ) - (convSum a b d (i + d) : ℤ)) % (q : ℤ)).toNat

/-- Spec wording of the `polySignal` rounding rule: cyclic distance of `c`
to 0 is `min(c, q-c)`; cyclic distance to q/2 is `min(|c-q/2|, q-|c-q/2|)`
(with q/2 = ⌊q/2⌋); the coefficient becomes 0 if distance-to-0 ≤
distance-to-(q/2), else q/2. -/
def specSignalCoeff (q c : ℕ) : ℕ :=
  let h := q / 2
  let dabs := max c h - min c h
  if min c (q - c) ≤ min dabs (q - dabs) then 0 else h

/-- The polynomial values reachable through the public interface
(claim C4): zero construction, construction from an explicit vector,
`setCoefficients`, and the non-throwing results of the arithmetic
operators and `polySignal`.  The constructions carry the `uint64_t`
bounds of the C++ types; following the counterexample to the claim, the
vector construction is restricted to inputs already reduced mod q, and
moduli are positive. -/
inductive Reachable : Poly → Prop
  | zero (n q : ℕ) (hq : 0 < q) (hq64 : q < 2 ^ 64) : Reachable (Poly.mk0 n q)
  | ofVec (v : List ℕ) (q : ℕ) (hq : 0 < q) (hq64 : q < 2 ^ 64)
      (hv : ∀ c ∈ v, c < q) : Reachable (Poly.ofVec v q)
  | setC (p p' : Poly) (v : List ℕ) (hv : ∀ c ∈ v, c < 2 ^ 64)
      (hp : Reachable p) (h : p.setCoefficients v = .ok p') : Reachable p'
  | add (a b c : Poly) (ha : Reachable a) (hb : Reachable b)
      (h : a.add b = .ok c) : Reachable c
  | sub (a b c : Poly) (ha : Reachable a) (hb : Reachable b)
      (h : a.sub b = .ok c) : Reachable c
  | mul (a b c : Poly) (ha : Reachable a) (hb : Reachable b)
      (h : a.mul b = .ok c) : Reachable c
  | neg (a : Poly) (ha : Reachable a) : Reachable a.negCore
  | smul (a : Poly) (k : ℕ) (hk : k < 2 ^ 64) (ha : Reachable a) :
      Reachable (a.scalarMul k)
  | signal (a : Poly) (ha : Reachable a) : Reachable a.polySignal

/-- The canonical polynomial lift of a coefficient list: the element
`Σ_{i<d} l[i] · x^i` of `(ZMod q)[X]` (proof-side apparatus; Mathlib's
`Polynomial` is noncomputable). -/
noncomputable def listPoly (q d : ℕ) (l : List ℕ) : Polynomial (ZMod q) :=
  ∑ i ∈ Finset.range d, Polynomial.C ((l.getD i 0 : ZMod q)) * Polynomial.X ^ i

/-- A polynomial value is a well-formed element of the ring of dimension
d and modulus q: matching fields, full-length coefficient vector and
canonically reduced coefficients. -/
structure InRing (d q : ℕ) (p : Poly) : Prop where
  dim : p.ring_dim = d
  mod : p.modulus = q
  len : p.coeffs.length = d
  red : ∀ c ∈ p.coeffs, c < q

/-! ## Machine-arithmetic lemmas -/

lemma i64ofU64_of_lt {c : ℕ} (h : c < 2 ^ 63) : i64ofU64 c = (c : ℤ) := by
  unfold i64ofU64
  rw [if_pos h]

lemma i64wrap_of_bounds {z : ℤ} (h1 : -(2 ^ 63) ≤ z) (h2 : z < 2 ^ 63) :
    i64wrap z = z := by
  have : (z + 2 ^ 63) % (2 ^ 64 : ℤ) = z + 2 ^ 63 :=
    Int.emod_eq_of_lt (by omega) (by omega)
  simp only [i64wrap, this]; omega

lemma u64sub_of_le {a b : ℕ} (hb : b ≤ a) (ha : a < 2 ^ 64) :
    u64sub a b = a - b := by
  have h1 : a + 2 ^ 64 - b = 2 ^ 64 + (a - b) := by omega
  rw [u64sub, h1, Nat.add_mod_left, Nat.mod_eq_of_lt (by omega)]

lemma u64add_of_lt {a b : ℕ} (h : a + b < 2 ^ 64) : u64add a b = a + b := by
  rw [u64add, Nat.mod_eq_of_lt h]

lemma neg_tmod (a b : ℤ) : (-a).tmod b = -(a.tmod b) := by
  simp [Int.tmod_def, Int.neg_tdiv]; ring

/-- Bounds on the truncated remainder: `|a.tmod b| < b` for `b > 0`, with
the sign matching the dividend. -/
lemma tmod_bounds {a b : ℤ} (hb : 0 < b) : -b < a.tmod b ∧ a.tmod b < b := by
  constructor
  · rcases le_or_lt 0 a with ha | ha
    · have := Int.tmod_nonneg b ha; omega
    · have h1 : (-a).tmod b < b := Int.tmod_lt_of_pos (-a) hb
      have h2 : (-a).tmod b = -(a.tmod b) := neg_tmod a b
      omega
  · exact Int.tmod_lt_of_pos a hb

/-- `x % m` and `x.tmod m` differ by 0 or m (for m > 0). -/
lemma emod_eq_tmod_fix {x : ℤ} {m : ℤ} (hm : 0 < m) :
    x % m = if x.tmod m < 0 then x.tmod m + m else x.tmod m := by
  have hdef := Int.tmod_def x m
  have hb := tmod_bounds (a := x) hm
  have h0 : x % m = (x.tmod m) % m := by
    conv_lhs => rw [show x = x.tmod m + m * x.tdiv m from by linarith]
    exact Int.add_mul_emod_self_left _ _ _
  rcases lt_or_le (x.tmod m) 0 with h | h
  · have h2 : (x.tmod m) % m = (x.tmod m + m) % m := by
      conv_lhs => rw [show x.tmod m = (x.tmod m + m) + m * (-1) from by ring]
      exact Int.add_mul_emod_self_left _ _ _
    rw [if_pos h, h0, h2, Int.emod_eq_of_lt (by omega) (by omega)]
  · rw [if_neg (not_lt.mpr h), h0, Int.emod_eq_of_lt (by omega) (by omega)]

lemma u64ofI64_of_neg {r : ℤ} (h1 : -(2 ^ 64) < r) (h2 : r < 0) :
    u64ofI64 r = (r + 2 ^ 64).toNat := by
  have h3 : r % (2 ^ 64 : ℤ) = (r + 2 ^ 64 * 1) % (2 ^ 64 : ℤ) := by
    rw [Int.add_mul_emod_self_left]
  have h4 : (r + 2 ^ 64 * 1) % (2 ^ 64 : ℤ) = r + 2 ^ 64 * 1 :=
    Int.emod_eq_of_lt (by omega) (by omega)
  rw [u64ofI64, h3, h4]
  omega

/-- `Polynomial::mod` computed exactly: for a modulus and argument within
the exact `int64_t` range, it is the floor-mod (`Int.emod`). -/
lemma cppMod_eq_emod {x : ℤ} {m : ℕ} (hm : 0 < m) (hm63 : m < 2 ^ 63) :
    cppMod x m = (x % (m : ℤ)).toNat := by
  have hmz : (0 : ℤ) < (m : ℤ) := by exact_mod_cast hm
  rw [cppMod, i64ofU64_of_lt (by omega)]
  have hb := tmod_bounds (a := x) hmz
  have hfix := emod_eq_tmod_fix (x := x) hmz
  rcases lt_or_le (x.tmod (m : ℤ)) 0 with h | h
  · rw [if_pos h, u64ofI64_of_neg (by omega) h, u64add, hfix, if_pos h]
    omega
  · rw [if_neg (not_lt.mpr h), hfix, if_neg (not_lt.mpr h)]

/-- `Polynomial::mod` on a nonnegative small argument is plain `%`. -/
lemma cppMod_natCast {c m : ℕ} (hm : 0 < m) (hm63 : m < 2 ^ 63) :
    cppMod (c : ℤ) m = c % m := by
  rw [cppMod_eq_emod hm hm63, ← Int.ofNat_emod]
  omega

/-- `Polynomial::mod` always produces a value `< m` (for any `uint64_t`
modulus `m > 0` and any argument), including the moduli ≥ 2^63 whose
conversion to `int64_t` is negative. -/
lemma cppMod_lt (x : ℤ) {m : ℕ} (hm : 0 < m) (hm64 : m < 2 ^ 64) :
    cppMod x m < m := by
  rw [cppMod]
  rcases lt_or_le m (2 ^ 63) with hsmall | hbig
  · rw [i64ofU64_of_lt hsmall]
    have hmz : (0 : ℤ) < (m : ℤ) := by exact_mod_cast hm
    have hb := tmod_bounds (a := x) hmz
    rcases lt_or_le (x.tmod (m : ℤ)) 0 with h | h
    · rw [if_pos h, u64ofI64_of_neg (by omega) h, u64add]
      omega
    · rw [if_neg (not_lt.mpr h)]
      omega
  · have hneg : i64ofU64 m = (m : ℤ) - 2 ^ 64 := by
      rw [i64ofU64, if_neg (by omega)]
    rw [hneg]
    have h1 : Int.tmod x ((m : ℤ) - 2 ^ 64) = Int.tmod x (2 ^ 64 - (m : ℤ)) := by
      rw [show (m : ℤ) - 2 ^ 64 = -(2 ^ 64 - (m : ℤ)) from by ring, Int.tmod_neg]
    have hpos : (0 : ℤ) < 2 ^ 64 - (m : ℤ) := by omega
    have hb := tmod_bounds (a := x) hpos
    rw [h1]
    rcases lt_or_le (Int.tmod x (2 ^ 64 - (m : ℤ))) 0 with h | h
    · rw [if_pos h, u64ofI64_of_neg (by omega) h, u64add]
      omega
    · rw [if_neg (not_lt.mpr h)]
      omega

/-! ## List access lemmas -/

lemma getD_map_range {f : ℕ → ℕ} {n i : ℕ} (h : i < n) :
    ((List.range n).map f).getD i 0 = f i := by
  rw [List.getD_eq_getElem _ _ (by simpa using h), List.getElem_map,
    List.getElem_range]

lemma getD_mem {l : List ℕ} {i : ℕ} (h : i < l.length) : l.getD i 0 ∈ l := by
  rw [List.getD_eq_getElem _ _ h]
  exact List.getElem_mem h

/-! ## polySignal: the source rounding is the spec's nearest-point rule -/

lemma signalCoeff_eq_spec {q c : ℕ} (hq64 : q < 2 ^ 64) (hc : c < q) :
    signalCoeff q c = specSignalCoeff q c := by
  have h1 : u64sub q c = q - c := u64sub_of_le (le_of_lt hc) hq64
  have h2 : q / 2 ≤ q := Nat.div_le_self q 2
  simp only [signalCoeff, specSignalCoeff]
  rcases le_or_lt (q / 2) c with h | h
  · rw [if_pos h, if_pos h, h1, u64sub_of_le h (by omega),
      u64add_of_lt (by omega)]
    split_ifs <;> omega
  · rw [if_neg (not_le.mpr h), if_neg (not_le.mpr h), h1,
      u64sub_of_le (le_of_lt h) (by omega), u64sub_of_le h2 hq64,
      u64add_of_lt (by omega)]
    split_ifs <;> omega

/-- C7 — `polySignal` realises the spec's nearest-point rounding onto
{0, q/2} under cyclic distance (ties to 0), and leaves dimension and
modulus unchanged.  Hypotheses: the modulus is a `uint64_t` value, the
coefficient vector has the polynomial's dimension, and every coefficient
is reduced (in [0, q)), as the claim assumes. -/
theorem polySignal_spec (p : Poly) (hq64 : p.modulus < 2 ^ 64)
    (hlen : p.coeffs.length = p.ring_dim)
    (hred : ∀ c ∈ p.coeffs, c < p.modulus) :
    p.polySignal = ⟨p.coeffs.map (specSignalCoeff p.modulus),
      p.ring_dim, p.modulus⟩ := by
  unfold Poly.polySignal
  congr 1
  apply List.ext_getElem
  · simp [hlen]
  · intro i h1 h2
    simp only [List.length_map, List.length_range] at h1
    rw [List.getElem_map, List.getElem_map, List.getElem_range]
    rw [← List.getD_eq_getElem p.coeffs 0 (by omega)]
    exact signalCoeff_eq_spec hq64 (hred _ (getD_mem (by omega)))

/-- Witness for C7 at a concrete input (q = 17, the unit test's ring). -/
theorem polySignal_spec_witness :
    (Poly.ofVec [2, 6, 8, 14] 17).polySignal
      = ⟨[2, 6, 8, 14].map (specSignalCoeff 17), 4, 17⟩ :=
  polySignal_spec (Poly.ofVec [2, 6, 8, 14] 17) (by decide) (by decide)
    (by decide)

/-! ## Ring-mismatch guards (C8) -/

/-- C8 — `operator+`, `operator-` and `operator*` fail with the
ring-mismatch error exactly when the operands' dimension or modulus
differ, and return a normal value (no error raised) exactly when both
agree. -/
theorem ring_guard_spec (a b : Poly) :
    (a.add b = .error .ringMismatch
        ↔ ¬(a.ring_dim = b.ring_dim ∧ a.modulus = b.modulus))
    ∧ (a.sub b = .error .ringMismatch
        ↔ ¬(a.ring_dim = b.ring_dim ∧ a.modulus = b.modulus))
    ∧ (a.mul b = .error .ringMismatch
        ↔ ¬(a.ring_dim = b.ring_dim ∧ a.modulus = b.modulus))
    ∧ ((∃ u, a.add b = .ok u) ∧ (∃ v, a.sub b = .ok v) ∧ (∃ w, a.mul b = .ok w)
        ↔ a.ring_dim = b.ring_dim ∧ a.modulus = b.modulus) := by
  unfold Poly.add Poly.sub Poly.mul
  by_cases h : a.ring_dim ≠ b.ring_dim ∨ a.modulus ≠ b.modulus
  · simp only [if_pos h]
    refine ⟨by tauto, by tauto, by tauto, ?_⟩
    simp only [reduceCtorEq, exists_false, false_and]
    tauto
  · simp only [if_neg h]
    push_neg at h
    refine ⟨?_, ?_, ?_, ?_⟩ <;> simp only [reduceCtorEq, Except.ok.injEq,
      exists_eq', true_and, false_iff, iff_true, not_not] <;> tauto

/-! ## The direct-scheme sign (C9, spec-modelled) -/

/-- C9 — the direct-scheme `sign(message)` returns the pair `(u, v)` with
`u = a*r + e1` and `v = b*r + e2 + messageToPolynomial(message)*⌊q/2⌋`,
where the fresh Gaussian draws `r, e1, e2` of each call are the explicit
randomness arguments.  (`RLWESignature::sign` is declared in `rlwe.h` but
not defined among the sources; `sign` is modelled from the spec, while
`messageToPolynomial` and the ring operations are translated from the
sources.) -/
theorem sign_spec (n q : ℕ) (a b r e1 e2 : Poly) (msg : List ℕ) :
    sign n q a b r e1 e2 msg
      = ((a.mulCore r).addCore e1,
         ((b.mulCore r).addCore e2).addCore
           ((messageToPolynomial n q msg).scalarMul (q / 2))) := rfl

/-! ## Blind-scheme verification (C1) -/

/-- C1 — `verify(message, signature)` returns true iff the `polySignal`
roundings of the signature and of `s * hashToPolynomial(message)` agree
in every coefficient; disagreement yields the normal return value
`false` (the model of `verify` is a total `Bool`-valued function — the
source has no exception path).  Hypotheses: the signature carries the
scheme's dimension and modulus, as the claim assumes, and the stored
secret `s` carries the scheme's dimension. -/
theorem verify_spec (digest : List ℕ → List ℕ) (n q : ℕ) (s : Poly)
    (msg : List ℕ) (sig : Poly) (hsig : sig.ring_dim = n)
    (_hsigq : sig.modulus = q) (_hs : s.ring_dim = n) :
    verify digest n q s msg sig = true
      ↔ ∀ i < n, sig.polySignal.coeffs.getD i 0
          = ((s.mulCore (hashToPolynomial digest n q msg)).polySignal).coeffs.getD i 0 := by
  have hlen : sig.polySignal.coeffs.length = n := by
    simp [Poly.polySignal, hsig]
  simp only [verify, List.all_eq_true, List.mem_range, beq_iff_eq, hlen]

/-- Witness for C1 at a concrete input (n = 1, q = 7681, a zero
signature against the secret key [3]). -/
theorem verify_spec_witness :
    verify zeroDigest 1 7681 ⟨[3], 1, 7681⟩ [18, 52] ⟨[0], 1, 7681⟩ = true
      ↔ ∀ i < 1, (Poly.polySignal ⟨[0], 1, 7681⟩).coeffs.getD i 0
          = ((Poly.mulCore ⟨[3], 1, 7681⟩
              (hashToPolynomial zeroDigest 1 7681 [18, 52])).polySignal).coeffs.getD i 0 :=
  verify_spec zeroDigest 1 7681 ⟨[3], 1, 7681⟩ [18, 52] ⟨[0], 1, 7681⟩
    rfl rfl rfl

/-! ## setCoefficients on large entries (C5) -/

/-- C5 — evaluation at the failing input: `setCoefficients([2^63])` on a
dimension-1 polynomial with q = 7681 stores 4899 (the entry passes
through the `int64_t` parameter of `Polynomial::mod`, so it is reduced as
2^63 − 2^64 ≡ −2782, yielding 7681 − 2782), not 2^63 mod 7681 = 2782 as
the claim and the spec's round-trip property require. -/
theorem setCoefficients_int64_bug :
    (Poly.mk0 1 7681).setCoefficients [2 ^ 63] = .ok ⟨[4899], 1, 7681⟩
    ∧ 2 ^ 63 % 7681 = 2782 ∧ (4899 : ℕ) ≠ 2782 := by decide

/-! ## Negacyclic multiplication on huge moduli (C2) -/

/-- C2 — evaluation at the failing input: with d = 1, q = 2^64 − 1 and
a = b = [2^32] (coefficients in [0, q)), the source computes the
coefficient product in `uint64_t`, so 2^32 · 2^32 wraps to 0 and the
returned product is [0]; the claim's exact negacyclic convolution
reference yields 2^64 mod (2^64 − 1) = 1. -/
theorem mul_overflow_bug :
    (Poly.ofVec [2 ^ 32] (2 ^ 64 - 1)).mul (Poly.ofVec [2 ^ 32] (2 ^ 64 - 1))
        = .ok ⟨[0], 1, 2 ^ 64 - 1⟩
    ∧ negacyclicRef [2 ^ 32] [2 ^ 32] 1 (2 ^ 64 - 1) 0 = 1
    ∧ (0 : ℕ) ≠ 1 := by decide

/-! ## Scalar multiplication (C6) -/

/-- C6 counterexample — the claim fails for scalars that overflow the
64-bit product: with q = 7681, a = [2] and k = 2^63, the source computes
(2 · 2^63 mod 2^64) mod q = 0, while the exact product reduces to
2^64 mod 7681 = 5564. -/
theorem scalarMul_wrap_cex :
    (Poly.ofVec [2] 7681).scalarMul (2 ^ 63) = ⟨[0], 1, 7681⟩
    ∧ 2 * 2 ^ 63 % 7681 = 5564 ∧ (0 : ℕ) ≠ 5564 := by decide

/-- C6 amended — scalar multiplication is coefficient-wise
`a[i]*k mod q` with the exact integer product, provided each product
`a[i]*k` stays below 2^64 (no 64-bit wraparound occurs); dimension and
modulus are preserved. -/
theorem scalarMul_spec (a : Poly) (k : ℕ)
    (hlen : a.coeffs.length = a.ring_dim)
    (_hred : ∀ c ∈ a.coeffs, c < a.modulus)
    (hbound : ∀ c ∈ a.coeffs, c * k < 2 ^ 64) :
    a.scalarMul k
      = ⟨a.coeffs.map (fun c => c * k % a.modulus), a.ring_dim, a.modulus⟩ := by
  unfold Poly.scalarMul
  congr 1
  apply List.ext_getElem
  · simp [hlen]
  · intro i h1 h2
    simp only [List.length_map, List.length_range] at h1
    rw [List.getElem_map, List.getElem_map, List.getElem_range,
      ← List.getD_eq_getElem a.coeffs 0 (by omega)]
    rw [Nat.mod_eq_of_lt (hbound _ (getD_mem (by omega)))]

/-- Witness for C6 at a concrete input (the unit test's vector, q = 17). -/
theorem scalarMul_spec_witness :
    (Poly.ofVec [1, 2, 3, 4] 17).scalarMul 2
      = ⟨[1, 2, 3, 4].map (fun c => c * 2 % 17), 4, 17⟩ :=
  scalarMul_spec (Poly.ofVec [1, 2, 3, 4] 17) 2 (by decide) (by decide)
    (by decide)

/-! ## The canonical-form invariant (C4) -/

lemma signalCoeff_cases (q c : ℕ) :
    signalCoeff q c = 0 ∨ signalCoeff q c = q / 2 := by
  unfold signalCoeff
  dsimp only
  split_ifs <;> simp

/-- C4 counterexample — construction from an explicit coefficient vector
does not reduce: `Polynomial({7681}, 7681)` keeps the coefficient 7681,
which is not in [0, 7681). -/
theorem ofVec_unreduced_cex :
    (Poly.ofVec [7681] 7681).coeffs = [7681]
    ∧ ¬(∀ c ∈ (Poly.ofVec [7681] 7681).coeffs,
          c < (Poly.ofVec [7681] 7681).modulus) := by decide

/-- C4 amended — every polynomial reachable through the public interface
has all coefficients in [0, q) and coefficient-vector length equal to its
dimension, where vector construction is restricted to inputs already
reduced mod q and moduli are positive `uint64_t` values (the
counterexample `ofVec_unreduced_cex` shows the restriction on vector
construction is necessary); `setCoefficients` and `scalarMul` still
accept arbitrary `uint64_t` inputs. -/
theorem reachable_invariant (p : Poly) (hp : Reachable p) :
    p.coeffs.length = p.ring_dim ∧ 0 < p.modulus ∧ p.modulus < 2 ^ 64
    ∧ ∀ c ∈ p.coeffs, c < p.modulus := by
  induction hp with
  | zero n q hq hq64 =>
    refine ⟨by simp [Poly.mk0], hq, hq64, ?_⟩
    intro c hc
    rw [List.eq_of_mem_replicate hc]
    exact hq
  | ofVec v q hq hq64 hv => exact ⟨rfl, hq, hq64, hv⟩
  | setC p p' v hv hp h ih =>
    obtain ⟨ihl, ihq, ihq64, ihred⟩ := ih
    unfold Poly.setCoefficients at h
    by_cases hg : v.length ≠ p.ring_dim
    · rw [if_pos hg] at h
      exact absurd h (by simp)
    · rw [if_neg hg] at h
      simp only [Except.ok.injEq] at h
      subst h
      refine ⟨by simpa using by omega, ihq, ihq64, ?_⟩
      intro c hc
      simp only [List.mem_map] at hc
      obtain ⟨x, _, rfl⟩ := hc
      exact cppMod_lt _ ihq ihq64
  | add a b c ha hb h iha ihb =>
    obtain ⟨ial, iaq, iaq64, iared⟩ := iha
    unfold Poly.add at h
    by_cases hg : a.ring_dim ≠ b.ring_dim ∨ a.modulus ≠ b.modulus
    · rw [if_pos hg] at h
      exact absurd h (by simp)
    · rw [if_neg hg] at h
      simp only [Except.ok.injEq] at h
      subst h
      refine ⟨by simp [Poly.addCore], iaq, iaq64, ?_⟩
      intro x hx
      simp only [Poly.addCore, List.mem_map] at hx
      obtain ⟨i, _, rfl⟩ := hx
      show _ % a.modulus < a.modulus
      exact Nat.mod_lt _ iaq
  | sub a b c ha hb h iha ihb =>
    obtain ⟨ial, iaq, iaq64, iared⟩ := iha
    unfold Poly.sub at h
    by_cases hg : a.ring_dim ≠ b.ring_dim ∨ a.modulus ≠ b.modulus
    · rw [if_pos hg] at h
      exact absurd h (by simp)
    · rw [if_neg hg] at h
      simp only [Except.ok.injEq] at h
      subst h
      refine ⟨by simp [Poly.subCore], iaq, iaq64, ?_⟩
      intro x hx
      simp only [Poly.subCore, List.mem_map] at hx
      obtain ⟨i, _, rfl⟩ := hx
      exact cppMod_lt _ iaq iaq64
  | mul a b c ha hb h iha ihb =>
    obtain ⟨ial, iaq, iaq64, iared⟩ := iha
    unfold Poly.mul at h
    by_cases hg : a.ring_dim ≠ b.ring_dim ∨ a.modulus ≠ b.modulus
    · rw [if_pos hg] at h
      exact absurd h (by simp)
    · rw [if_neg hg] at h
      simp only [Except.ok.injEq] at h
      subst h
      refine ⟨by simp [Poly.mulCore], iaq, iaq64, ?_⟩
      intro x hx
      simp only [Poly.mulCore, List.mem_map] at hx
      obtain ⟨i, _, rfl⟩ := hx
      exact cppMod_lt _ iaq iaq64
  | neg a ha iha =>
    obtain ⟨ial, iaq, iaq64, iared⟩ := iha
    refine ⟨by simp [Poly.negCore], iaq, iaq64, ?_⟩
    intro x hx
    simp only [Poly.negCore, List.mem_map, List.mem_range] at hx
    obtain ⟨i, hi, rfl⟩ := hx
    have hci : a.coeffs.getD i 0 < a.modulus := iared _ (getD_mem (by omega))
    show (if a.coeffs.getD i 0 = 0 then 0
        else u64sub a.modulus (a.coeffs.getD i 0)) < a.modulus
    split_ifs with h0
    · exact iaq
    · rw [u64sub_of_le (le_of_lt hci) iaq64]
      omega
  | smul a k hk ha iha =>
    obtain ⟨ial, iaq, iaq64, iared⟩ := iha
    refine ⟨by simp [Poly.scalarMul], iaq, iaq64, ?_⟩
    intro x hx
    simp only [Poly.scalarMul, List.mem_map] at hx
    obtain ⟨i, _, rfl⟩ := hx
    show _ % a.modulus < a.modulus
    exact Nat.mod_lt _ iaq
  | signal a ha iha =>
    obtain ⟨ial, iaq, iaq64, iared⟩ := iha
    refine ⟨by simp [Poly.polySignal], iaq, iaq64, ?_⟩
    intro x hx
    simp only [Poly.polySignal, List.mem_map] at hx
    obtain ⟨i, _, rfl⟩ := hx
    show signalCoeff a.modulus (a.coeffs.getD i 0) < a.modulus
    rcases signalCoeff_cases a.modulus (a.coeffs.getD i 0) with h | h <;> rw [h]
    · exact iaq
    · exact Nat.div_lt_self iaq (by omega)

/-- Witness for C4: the invariant holds for a concretely reachable value. -/
theorem reachable_invariant_witness :
    (Poly.mk0 2 17).coeffs.length = (Poly.mk0 2 17).ring_dim
    ∧ 0 < (Poly.mk0 2 17).modulus ∧ (Poly.mk0 2 17).modulus < 2 ^ 64
    ∧ ∀ c ∈ (Poly.mk0 2 17).coeffs, c < (Poly.mk0 2 17).modulus :=
  reachable_invariant (Poly.mk0 2 17)
    (Reachable.zero 2 17 (by decide) (by decide))

/-! ## Zero-operand lemmas (used for the blind protocol with zero noise) -/

lemma getD_replicate_zero (n i : ℕ) : (List.replicate n (0 : ℕ)).getD i 0 = 0 := by
  rcases lt_or_le i n with h | h
  · rw [List.getD_eq_getElem _ _ (by simpa using h), List.getElem_replicate]
  · rw [List.getD_eq_default _ _ (by simpa using h)]

lemma set_zero_self {l : List ℕ} {k : ℕ} (h : ∀ x ∈ l, x = 0) :
    l.set k 0 = l := by
  apply List.ext_getElem (by simp)
  intro n h1 h2
  rw [List.getElem_set]
  split_ifs with he
  · exact (h _ (List.getElem_mem h2)).symm
  · rfl

lemma cppMod_zero (m : ℕ) : cppMod 0 m = 0 := by
  simp [cppMod, Int.zero_tmod]

/-- If every coefficient product of the two operands is zero, the
schoolbook accumulator stays the all-zero array. -/
lemma foldl_mulStep_zero (a b : Poly)
    (hprod : ∀ i j, a.coeffs.getD i 0 * b.coeffs.getD j 0 = 0) (d : ℕ) :
    ∀ L : List (ℕ × ℕ),
      L.foldl (mulStep a b) (List.replicate (2 * d) 0) = List.replicate (2 * d) 0 := by
  intro L
  induction L with
  | nil => rfl
  | cons p L ih =>
    rw [List.foldl_cons,
      show mulStep a b (List.replicate (2 * d) 0) p = List.replicate (2 * d) 0 from ?_, ih]
    unfold mulStep
    dsimp only
    rw [hprod p.1 p.2, getD_replicate_zero]
    norm_num

/-- Multiplying by an (all-zero-coefficient) operand yields the zero
polynomial of the left operand's ring. -/
lemma mulCore_zero (a b : Poly)
    (hprod : ∀ i j, a.coeffs.getD i 0 * b.coeffs.getD j 0 = 0) :
    a.mulCore b = Poly.mk0 a.ring_dim a.modulus := by
  unfold Poly.mulCore Poly.mk0
  dsimp only
  rw [foldl_mulStep_zero a b hprod a.ring_dim (mulPairs a.ring_dim)]
  congr 1
  rw [List.eq_replicate_iff]
  refine ⟨by simp, ?_⟩
  intro x hx
  simp only [List.mem_map] at hx
  obtain ⟨i, _, rfl⟩ := hx
  rw [getD_replicate_zero, getD_replicate_zero, i64ofU64_of_lt (by norm_num),
    sub_self, i64wrap_of_bounds (by norm_num) (by norm_num), cppMod_zero]

/-- Adding an all-zero-coefficient polynomial returns the left operand
unchanged (for reduced coefficients). -/
lemma addCore_zero (a b : Poly) (hb : ∀ i, b.coeffs.getD i 0 = 0)
    (hlen : a.coeffs.length = a.ring_dim)
    (hred : ∀ c ∈ a.coeffs, c < a.modulus) (hq64 : a.modulus ≤ 2 ^ 64) :
    a.addCore b = a := by
  unfold Poly.addCore
  obtain ⟨c, n, q⟩ := a
  simp only at hlen hred hq64 hb ⊢
  congr 1
  apply List.ext_getElem (by simp [hlen])
  intro i h1 h2
  simp only [List.length_map, List.length_range] at h1
  have hci := hred _ (getD_mem h2)
  rw [List.getElem_map, List.getElem_range, hb,
    ← List.getD_eq_getElem c 0 h2, Nat.add_zero,
    Nat.mod_eq_of_lt (show c.getD i 0 < 2 ^ 64 from by omega),
    Nat.mod_eq_of_lt hci]

/-- Subtracting an all-zero-coefficient polynomial returns the left
operand unchanged (for reduced coefficients and a modulus below 2^63). -/
lemma subCore_zero (a b : Poly) (hb : ∀ i, b.coeffs.getD i 0 = 0)
    (hlen : a.coeffs.length = a.ring_dim)
    (hred : ∀ c ∈ a.coeffs, c < a.modulus)
    (hq : 0 < a.modulus) (hq63 : a.modulus < 2 ^ 63) :
    a.subCore b = a := by
  unfold Poly.subCore
  obtain ⟨c, n, q⟩ := a
  simp only at hlen hred hq hq63 hb ⊢
  congr 1
  apply List.ext_getElem (by simp [hlen])
  intro i h1 h2
  simp only [List.length_map, List.length_range] at h1
  have hci := hred _ (getD_mem h2)
  rw [List.getElem_map, List.getElem_range, hb,
    ← List.getD_eq_getElem c 0 h2,
    i64ofU64_of_lt (by omega), i64ofU64_of_lt (by norm_num), Nat.cast_zero,
    sub_zero, i64wrap_of_bounds (by omega) (by omega),
    cppMod_natCast hq hq63, Nat.mod_eq_of_lt hci]

/-! ## hashToPolynomial shape lemmas -/

lemma sum_map_const {l : List ℕ} {f : ℕ → ℕ} {k : ℕ}
    (h : ∀ x ∈ l, f x = k) : (l.map f).sum = l.length * k := by
  rw [show l.map f = List.replicate l.length k from by
    rw [List.eq_replicate_iff]
    exact ⟨by simp, by simpa using h⟩]
  simp [List.sum_replicate]

lemma hash_coeffs_length (digest : List ℕ → List ℕ)
    (hdig : ∀ bs, (digest bs).length = 32) (n q : ℕ) (msg : List ℕ) :
    (hashToPolynomial digest n q msg).coeffs.length = n := by
  unfold hashToPolynomial
  simp only [List.length_map, List.length_take]
  rw [List.length_flatMap,
    sum_map_const (k := 256) (fun ctr _ => by
      simp only [Function.comp_apply]
      rw [List.length_flatMap,
        sum_map_const (k := 8) (fun x _ => by simp [byteBits]), hdig]),
    List.length_range]
  have : 256 ≤ (n + 255) / 256 * 256 + 256 - n + 256 * ((n + 255) / 256)
      - (n + 255) / 256 * 256 := by omega
  omega

lemma hash_coeffs_mem (digest : List ℕ → List ℕ) (n q : ℕ) (msg : List ℕ) :
    ∀ c ∈ (hashToPolynomial digest n q msg).coeffs, c = 0 ∨ c = q / 2 := by
  intro c hc
  unfold hashToPolynomial at hc
  simp only [List.mem_map] at hc
  obtain ⟨bit, _, rfl⟩ := hc
  split_ifs <;> simp

/-! ## The blind protocol (C3) -/

set_option maxRecDepth 4000 in
/-- C3 counterexample — the protocol does not verify for every choice of
the Gaussian draws: with n = 1, q = 7681, generator a = [0], secret key
s = [1], blinding factor r = [0] and signing noise e1 = [3840] (all
values the Gaussian sampler can return), and the claim's third argument
publicA = a, `verify` returns false: the signature is
s·Y + e1 = Y + 3840, whose rounding differs from that of s·Y = Y in
coefficient 0 whichever of {0, 3840} the hashed secret's coefficient is.
(The digest is instantiated with the concrete admissible `zeroDigest`;
the failure does not depend on the digest's values.) -/
theorem blind_protocol_noise_cex :
    verify zeroDigest 1 7681 ⟨[1], 1, 7681⟩ [18, 52]
      (computeSignature
        (blindSign ⟨[1], 1, 7681⟩ ⟨[3840], 1, 7681⟩
          (computeBlindedMessage zeroDigest 1 7681 ⟨[0], 1, 7681⟩
            ⟨[0], 1, 7681⟩ [18, 52]).1)
        (computeBlindedMessage zeroDigest 1 7681 ⟨[0], 1, 7681⟩
          ⟨[0], 1, 7681⟩ [18, 52]).2
        ⟨[0], 1, 7681⟩) = false := by decide

/-- C3 amended — the blind protocol verifies whenever the Gaussian draws
r (blinding factor) and e1 (signing noise) are zero: for every secret,
every generator `a`, every stored secret key `s` over the scheme's
modulus q (0 < q < 2^63), and every third argument `A` to
`computeSignature` (in particular the claim's publicA = a, which with
r = 0 contributes nothing), running
computeBlindedMessage / blindSign / computeSignature / verify returns
true.  For nonzero draws verification can fail
(`blind_protocol_noise_cex`). -/
theorem blind_protocol_zero_noise (digest : List ℕ → List ℕ)
    (hdig : ∀ bs, (digest bs).length = 32) (n q : ℕ) (hq : 0 < q)
    (hq63 : q < 2 ^ 63) (a s A : Poly) (secret : List ℕ)
    (hsq : s.modulus = q) :
    verify digest n q s secret
      (computeSignature
        (blindSign s (Poly.mk0 n q)
          (computeBlindedMessage digest n q a (Poly.mk0 n q) secret).1)
        (computeBlindedMessage digest n q a (Poly.mk0 n q) secret).2
        A) = true := by
  have hYlen : (hashToPolynomial digest n q secret).coeffs.length
      = (hashToPolynomial digest n q secret).ring_dim :=
    hash_coeffs_length digest hdig n q secret
  have hYred : ∀ c ∈ (hashToPolynomial digest n q secret).coeffs,
      c < (hashToPolynomial digest n q secret).modulus := by
    intro c hc
    rcases hash_coeffs_mem digest n q secret c hc with h | h <;> rw [h]
    · exact hq
    · exact Nat.div_lt_self hq (by omega)
  have hlen2 : (s.mulCore (hashToPolynomial digest n q secret)).coeffs.length
      = (s.mulCore (hashToPolynomial digest n q secret)).ring_dim := by
    simp [Poly.mulCore]
  have hred2 : ∀ c ∈ (s.mulCore (hashToPolynomial digest n q secret)).coeffs,
      c < (s.mulCore (hashToPolynomial digest n q secret)).modulus := by
    intro c hc
    simp only [Poly.mulCore, List.mem_map] at hc
    obtain ⟨i, _, rfl⟩ := hc
    show cppMod _ s.modulus < s.modulus
    exact cppMod_lt _ (by omega) (by omega)
  simp only [computeBlindedMessage, blindSign, computeSignature]
  rw [mulCore_zero a (Poly.mk0 n q) (fun i j => by
      rw [show (Poly.mk0 n q).coeffs.getD j 0 = 0 from getD_replicate_zero n j,
        Nat.mul_zero])]
  rw [addCore_zero _ _ (fun i => getD_replicate_zero _ i) hYlen hYred
    (show q ≤ 2 ^ 64 from by omega)]
  rw [addCore_zero _ _ (fun i => getD_replicate_zero _ i) hlen2 hred2
    (show s.modulus ≤ 2 ^ 64 from by omega)]
  rw [mulCore_zero (Poly.mk0 n q) A (fun i j => by
      rw [show (Poly.mk0 n q).coeffs.getD i 0 = 0 from getD_replicate_zero n i,
        Nat.zero_mul])]
  rw [subCore_zero _ _ (fun i => getD_replicate_zero _ i) hlen2 hred2
    (show 0 < s.modulus from by omega) (show s.modulus < 2 ^ 63 from by omega)]
  simp only [verify]
  rw [List.all_eq_true]
  intro i _
  exact beq_self_eq_true _

/-! ## Characterising the schoolbook accumulator of `operator*`

`temp[m]` after the double loop is the exact convolution sum mod q,
provided coefficient products do not overflow 64 bits. -/

lemma getD_set_self {t : List ℕ} {k v : ℕ} (h : k < t.length) :
    (t.set k v).getD k 0 = v := by
  rw [List.getD_eq_getElem _ _ (by simpa using h), List.getElem_set]
  simp

lemma getD_set_other {t : List ℕ} {k m v : ℕ} (h : k ≠ m) :
    (t.set k v).getD m 0 = t.getD m 0 := by
  rcases lt_or_le m t.length with hm | hm
  · rw [List.getD_eq_getElem _ _ (by simpa using hm),
      List.getD_eq_getElem _ _ hm, List.getElem_set_ne h]
  · rw [List.getD_eq_default _ _ (by simpa using hm),
      List.getD_eq_default _ _ hm]

lemma mem_mulPairs {d : ℕ} {p : ℕ × ℕ} :
    p ∈ mulPairs d ↔ p.1 < d ∧ p.2 < d := by
  unfold mulPairs
  simp only [List.mem_flatMap, List.mem_map, List.mem_range]
  constructor
  · rintro ⟨i, hi, j, hj, rfl⟩
    exact ⟨hi, hj⟩
  · rintro ⟨h1, h2⟩
    exact ⟨p.1, h1, p.2, h2, rfl⟩

/-- Only the loop iterations hitting index `m` matter for `temp[m]`, and
they act on the accumulator value alone. -/
lemma foldl_mulStep_getD (a b : Poly) (m : ℕ) :
    ∀ (L : List (ℕ × ℕ)) (t : List ℕ), (∀ p ∈ L, p.1 + p.2 < t.length) →
      (L.foldl (mulStep a b) t).getD m 0
        = ((L.filter fun p => p.1 + p.2 = m).foldl
            (fun acc p =>
              (acc + a.coeffs.getD p.1 0 * b.coeffs.getD p.2 0 % 2 ^ 64 % a.modulus)
                % 2 ^ 64 % a.modulus)
            (t.getD m 0)) := by
  intro L
  induction L with
  | nil => intro t _; rfl
  | cons p L ih =>
    intro t hlen
    have hlenp : p.1 + p.2 < t.length := hlen p (by simp)
    have hrest : ∀ p' ∈ L, p'.1 + p'.2 < (mulStep a b t p).length := by
      intro p' hp'
      have : (mulStep a b t p).length = t.length := by
        simp [mulStep, List.length_set]
      rw [this]
      exact hlen p' (by simp [hp'])
    rw [List.foldl_cons, List.filter_cons]
    by_cases hp : p.1 + p.2 = m
    · rw [if_pos (by simpa using hp), List.foldl_cons, ih _ hrest]
      congr 1
      unfold mulStep
      dsimp only
      rw [hp, getD_set_self (by omega)]
    · rw [if_neg (by simpa using hp), ih _ hrest]
      congr 1
      unfold mulStep
      dsimp only
      exact getD_set_other hp

/-- The per-index accumulation loop computes the running sum mod q. -/
lemma foldl_acc_mod {q : ℕ} (hq : 0 < q) (h2q : 2 * q ≤ 2 ^ 64)
    (f : ℕ × ℕ → ℕ) (hf : ∀ p, f p < q) :
    ∀ (P : List (ℕ × ℕ)) (acc : ℕ), acc < q →
      P.foldl (fun acc p => (acc + f p) % 2 ^ 64 % q) acc
        = (acc + (P.map f).sum) % q := by
  intro P
  induction P with
  | nil =>
    intro acc hacc
    simp [Nat.mod_eq_of_lt hacc]
  | cons p P ih =>
    intro acc hacc
    have hfp := hf p
    rw [List.foldl_cons,
      show (acc + f p) % 2 ^ 64 = acc + f p from Nat.mod_eq_of_lt (by omega),
      ih _ (Nat.mod_lt _ hq), List.map_cons, List.sum_cons, Nat.mod_add_mod,
      Nat.add_assoc]

lemma sum_map_mod {α : Type} (q : ℕ) (g : α → ℕ) (l : List α) :
    ((l.map fun x => g x % q).sum) % q = ((l.map g).sum) % q := by
  induction l with
  | nil => rfl
  | cons x l ih =>
    rw [List.map_cons, List.map_cons, List.sum_cons, List.sum_cons,
      Nat.add_mod, Nat.mod_mod_of_dvd _ dvd_rfl, ih, ← Nat.add_mod]

lemma list_range_sum (g : ℕ → ℕ) (d : ℕ) :
    ((List.range d).map g).sum = ∑ j ∈ Finset.range d, g j := by
  induction d with
  | zero => simp
  | succ d ih =>
    rw [List.range_succ, List.map_append, List.sum_append,
      Finset.sum_range_succ, ih]
    simp

lemma sum_flatMap_nat (l : List ℕ) (g : ℕ → List ℕ) :
    (l.flatMap g).sum = (l.map fun x => (g x).sum).sum := by
  induction l with
  | nil => rfl
  | cons x l ih =>
    rw [List.flatMap_cons, List.sum_append, List.map_cons, List.sum_cons, ih]

lemma range_filter_single (i m : ℕ) (d : ℕ) :
    (List.range d).filter (fun j => i + j = m)
      = if i ≤ m ∧ m - i < d then [m - i] else [] := by
  induction d with
  | zero =>
    rw [List.range_zero, List.filter_nil, if_neg (by omega)]
  | succ d ih =>
    rw [List.range_succ, List.filter_append, ih, List.filter_cons,
      List.filter_nil]
    by_cases h : i + d = m
    · rw [if_neg (show ¬(i ≤ m ∧ m - i < d) from by omega),
        if_pos (show decide (i + d = m) = true from by simpa using h),
        if_pos (show i ≤ m ∧ m - i < d + 1 from by omega),
        List.nil_append, show m - i = d from by omega]
    · rw [if_neg (show ¬decide (i + d = m) = true from by simpa using h),
        List.append_nil]
      by_cases h2 : i ≤ m ∧ m - i < d
      · rw [if_pos h2, if_pos (show i ≤ m ∧ m - i < d + 1 from by omega)]
      · rw [if_neg h2, if_neg (show ¬(i ≤ m ∧ m - i < d + 1) from by omega)]

lemma filter_mulPairs (d m : ℕ) :
    (mulPairs d).filter (fun p => p.1 + p.2 = m)
      = (List.range d).flatMap (fun i =>
          if i ≤ m ∧ m - i < d then [(i, m - i)] else []) := by
  unfold mulPairs
  rw [List.filter_flatMap]
  congr 1
  funext i
  rw [List.filter_map,
    show (fun p : ℕ × ℕ => decide (p.1 + p.2 = m)) ∘ (fun j => ((i, j) : ℕ × ℕ))
      = fun j => decide (i + j = m) from rfl,
    range_filter_single i m d]
  split_ifs <;> simp

lemma sum_filter_mulPairs (A B : List ℕ) (d m : ℕ) :
    (((mulPairs d).filter fun p => p.1 + p.2 = m).map
        fun p => A.getD p.1 0 * B.getD p.2 0).sum
      = convSum A B d m := by
  rw [filter_mulPairs, List.map_flatMap]
  rw [show ((List.range d).flatMap fun i =>
        ((if i ≤ m ∧ m - i < d then [((i, m - i) : ℕ × ℕ)] else []).map
          fun p => A.getD p.1 0 * B.getD p.2 0))
      = (List.range d).flatMap fun i =>
          (if i ≤ m ∧ m - i < d then [A.getD i 0 * B.getD (m - i) 0] else []) from by
    congr 1
    funext i
    split_ifs <;> rfl]
  rw [sum_flatMap_nat,
    show ((List.range d).map fun i =>
        (if i ≤ m ∧ m - i < d then [A.getD i 0 * B.getD (m - i) 0] else []).sum)
      = (List.range d).map fun i =>
          if i ≤ m ∧ m - i < d then A.getD i 0 * B.getD (m - i) 0 else 0 from by
    congr 1
    funext i
    split_ifs <;> simp]
  rw [list_range_sum]
  rfl

/-- Products of reduced coefficients fit in 64 bits when q ≤ 2^32. -/
lemma prod_lt_u64 {x y q : ℕ} (hx : x < q) (hy : y < q) (hq32 : q ≤ 2 ^ 32) :
    x * y < 2 ^ 64 :=
  lt_of_lt_of_le (Nat.mul_lt_mul'' hx hy)
    (le_trans (Nat.mul_le_mul hq32 hq32) (by norm_num))

/-- The schoolbook accumulator after the double loop:
`temp[m] = convSum(a, b, d, m) mod q`. -/
lemma temp_getD (a b : Poly) (d m : ℕ)
    (hq : 0 < a.modulus) (hq32 : a.modulus ≤ 2 ^ 32)
    (hga : ∀ i, a.coeffs.getD i 0 < a.modulus)
    (hgb : ∀ j, b.coeffs.getD j 0 < a.modulus) :
    ((mulPairs d).foldl (mulStep a b) (List.replicate (2 * d) 0)).getD m 0
      = convSum a.coeffs b.coeffs d m % a.modulus := by
  rw [foldl_mulStep_getD a b m (mulPairs d) _ (fun p hp => by
    rw [List.length_replicate]
    have := mem_mulPairs.mp hp
    omega)]
  rw [getD_replicate_zero,
    foldl_acc_mod hq (by omega)
      (fun p => a.coeffs.getD p.1 0 * b.coeffs.getD p.2 0 % 2 ^ 64 % a.modulus)
      (fun p => Nat.mod_lt _ hq) _ 0 hq,
    Nat.zero_add,
    List.map_congr_left (g := fun p : ℕ × ℕ =>
        a.coeffs.getD p.1 0 * b.coeffs.getD p.2 0 % a.modulus)
      (fun p _ => by
        rw [Nat.mod_eq_of_lt (prod_lt_u64 (hga p.1) (hgb p.2) hq32)]),
    sum_map_mod, sum_filter_mulPairs]

/-- Witness for C3 (amended): a full concrete protocol run with zero
draws, n = 2, q = 7681, a = [5, 1], s = [3, 2]. -/
theorem blind_protocol_zero_noise_witness :
    verify zeroDigest 2 7681 ⟨[3, 2], 2, 7681⟩ [18, 52]
      (computeSignature
        (blindSign ⟨[3, 2], 2, 7681⟩ (Poly.mk0 2 7681)
          (computeBlindedMessage zeroDigest 2 7681 ⟨[5, 1], 2, 7681⟩
            (Poly.mk0 2 7681) [18, 52]).1)
        (computeBlindedMessage zeroDigest 2 7681 ⟨[5, 1], 2, 7681⟩
          (Poly.mk0 2 7681) [18, 52]).2
        ⟨[5, 1], 2, 7681⟩) = true :=
  blind_protocol_zero_noise zeroDigest (fun _ => rfl) 2 7681 (by omega)
    (by omega) ⟨[5, 1], 2, 7681⟩ ⟨[3, 2], 2, 7681⟩ ⟨[5, 1], 2, 7681⟩
    [18, 52] rfl

/-! ## Coefficients of `operator*` are the folded convolution sums -/

lemma InRing.getD_lt {d q : ℕ} {p : Poly} (h : InRing d q p) (hq : 0 < q)
    (i : ℕ) : p.coeffs.getD i 0 < q := by
  rcases lt_or_le i p.coeffs.length with hi | hi
  · exact h.red _ (getD_mem hi)
  · rw [List.getD_eq_default _ _ hi]
    exact hq

lemma mulCore_getD {d q : ℕ} {a b : Poly} (i : ℕ) (hi : i < d)
    (hq : 0 < q) (hq32 : q ≤ 2 ^ 32) (ha : InRing d q a) (hb : InRing d q b) :
    (a.mulCore b).coeffs.getD i 0
      = negacyclicRef a.coeffs b.coeffs d q i := by
  unfold Poly.mulCore
  dsimp only
  rw [ha.dim, ha.mod, getD_map_range hi,
    temp_getD a b d i (by rw [ha.mod]; exact hq) (by rw [ha.mod]; exact hq32)
      (fun j => by rw [ha.mod]; exact ha.getD_lt hq j)
      (fun j => by rw [ha.mod]; exact hb.getD_lt hq j),
    temp_getD a b d (i + d) (by rw [ha.mod]; exact hq) (by rw [ha.mod]; exact hq32)
      (fun j => by rw [ha.mod]; exact ha.getD_lt hq j)
      (fun j => by rw [ha.mod]; exact hb.getD_lt hq j),
    ha.mod]
  have h1 : convSum a.coeffs b.coeffs d i % q < q := Nat.mod_lt _ hq
  have h2 : convSum a.coeffs b.coeffs d (i + d) % q < q := Nat.mod_lt _ hq
  rw [i64ofU64_of_lt (by omega), i64ofU64_of_lt (by omega),
    i64wrap_of_bounds (by push_cast; omega) (by push_cast; omega),
    cppMod_eq_emod hq (by omega)]
  unfold negacyclicRef
  congr 1
  rw [Int.ofNat_emod, Int.ofNat_emod, ← Int.sub_emod]

/-! ## The polynomial lift and its algebra -/

lemma listPoly_coeff (q d : ℕ) (l : List ℕ) (k : ℕ) :
    (listPoly q d l).coeff k = if k < d then (l.getD k 0 : ZMod q) else 0 := by
  unfold listPoly
  rw [Polynomial.finset_sum_coeff,
    Finset.sum_congr rfl (fun i (_ : i ∈ Finset.range d) => by
      rw [Polynomial.coeff_C_mul, Polynomial.coeff_X_pow, mul_ite, mul_one,
        mul_zero]),
    Finset.sum_ite_eq]
  simp [Finset.mem_range]

lemma listPoly_degree_lt (q d : ℕ) (l : List ℕ) :
    (listPoly q d l).degree < (d : ℕ) :=
  (Polynomial.degree_lt_iff_coeff_zero _ d).mpr fun m hm => by
    rw [listPoly_coeff, if_neg (by omega)]

lemma natCast_mod_zmod (x q : ℕ) : ((x % q : ℕ) : ZMod q) = (x : ZMod q) := by
  conv_rhs => rw [← Nat.div_add_mod x q]
  push_cast [ZMod.natCast_self]
  ring

lemma intCast_emod_zmod {q : ℕ} (hq : 0 < q) (x : ℤ) :
    (((x % (q : ℤ)).toNat : ℕ) : ZMod q) = (x : ZMod q) := by
  have hqz : (q : ℤ) ≠ 0 := by exact_mod_cast hq.ne'
  have h0 : 0 ≤ x % (q : ℤ) := Int.emod_nonneg x hqz
  have h1 : (((x % (q : ℤ)).toNat : ℕ) : ZMod q)
      = ((x % (q : ℤ) : ℤ) : ZMod q) := by
    rw [← Int.cast_natCast, Int.toNat_of_nonneg h0]
  rw [h1]
  conv_rhs => rw [← Int.emod_add_ediv x (q : ℤ)]
  push_cast [ZMod.natCast_self]
  ring

lemma cast_cppMod {q : ℕ} (hq : 0 < q) (hq63 : q < 2 ^ 63) (x : ℤ) :
    ((cppMod x q : ℕ) : ZMod q) = (x : ZMod q) := by
  rw [cppMod_eq_emod hq hq63, intCast_emod_zmod hq]

/-! ## Ring-membership closure of the operations -/

lemma addCore_inRing {d q : ℕ} {a b : Poly} (hq : 0 < q)
    (ha : InRing d q a) (_hb : InRing d q b) : InRing d q (a.addCore b) := by
  refine ⟨ha.dim, ha.mod, ?_, ?_⟩
  · show ((List.range a.ring_dim).map _).length = d
    rw [List.length_map, List.length_range, ha.dim]
  · intro c hc
    simp only [Poly.addCore, List.mem_map] at hc
    obtain ⟨i, _, rfl⟩ := hc
    show _ % a.modulus < q
    rw [ha.mod]
    exact Nat.mod_lt _ hq

lemma subCore_inRing {d q : ℕ} {a b : Poly} (hq : 0 < q) (hq64 : q < 2 ^ 64)
    (ha : InRing d q a) (_hb : InRing d q b) : InRing d q (a.subCore b) := by
  refine ⟨ha.dim, ha.mod, ?_, ?_⟩
  · show ((List.range a.ring_dim).map _).length = d
    rw [List.length_map, List.length_range, ha.dim]
  · intro c hc
    simp only [Poly.subCore, List.mem_map] at hc
    obtain ⟨i, _, rfl⟩ := hc
    show cppMod _ a.modulus < q
    rw [ha.mod]
    exact cppMod_lt _ hq hq64

lemma mulCore_inRing {d q : ℕ} {a b : Poly} (hq : 0 < q) (hq64 : q < 2 ^ 64)
    (ha : InRing d q a) (_hb : InRing d q b) : InRing d q (a.mulCore b) := by
  refine ⟨ha.dim, ha.mod, ?_, ?_⟩
  · show ((List.range a.ring_dim).map _).length = d
    rw [List.length_map, List.length_range, ha.dim]
  · intro c hc
    simp only [Poly.mulCore, List.mem_map] at hc
    obtain ⟨i, _, rfl⟩ := hc
    show cppMod _ a.modulus < q
    rw [ha.mod]
    exact cppMod_lt _ hq hq64

lemma hash_inRing (digest : List ℕ → List ℕ)
    (hdig : ∀ bs, (digest bs).length = 32) {d q : ℕ} (hq : 0 < q)
    (secret : List ℕ) : InRing d q (hashToPolynomial digest d q secret) := by
  refine ⟨rfl, rfl, hash_coeffs_length digest hdig d q secret, ?_⟩
  intro c hc
  rcases hash_coeffs_mem digest d q secret c hc with h | h <;> rw [h]
  · exact hq
  · exact Nat.div_lt_self hq (by omega)

/-! ## The lift is a homomorphism for the source operations -/

lemma listPoly_addCore {d q : ℕ} {a b : Poly} (hq : 0 < q) (hq32 : q ≤ 2 ^ 32)
    (ha : InRing d q a) (hb : InRing d q b) :
    listPoly q d (a.addCore b).coeffs
      = listPoly q d a.coeffs + listPoly q d b.coeffs := by
  apply Polynomial.ext
  intro k
  rw [Polynomial.coeff_add, listPoly_coeff, listPoly_coeff, listPoly_coeff]
  split_ifs with hk
  · have hx := ha.getD_lt hq k
    have hy := hb.getD_lt hq k
    rw [show (a.addCore b).coeffs.getD k 0
        = (a.coeffs.getD k 0 + b.coeffs.getD k 0) % 2 ^ 64 % q from by
      unfold Poly.addCore
      dsimp only
      rw [ha.dim, ha.mod, getD_map_range hk]]
    rw [Nat.mod_eq_of_lt
        (show a.coeffs.getD k 0 + b.coeffs.getD k 0 < 2 ^ 64 from by omega),
      natCast_mod_zmod, Nat.cast_add]
  · rw [add_zero]

lemma listPoly_subCore {d q : ℕ} {a b : Poly} (hq : 0 < q) (hq32 : q ≤ 2 ^ 32)
    (ha : InRing d q a) (hb : InRing d q b) :
    listPoly q d (a.subCore b).coeffs
      = listPoly q d a.coeffs - listPoly q d b.coeffs := by
  apply Polynomial.ext
  intro k
  rw [Polynomial.coeff_sub, listPoly_coeff, listPoly_coeff, listPoly_coeff]
  split_ifs with hk
  · have hx := ha.getD_lt hq k
    have hy := hb.getD_lt hq k
    rw [show (a.subCore b).coeffs.getD k 0
        = cppMod ((a.coeffs.getD k 0 : ℤ) - (b.coeffs.getD k 0 : ℤ)) q from by
      unfold Poly.subCore
      dsimp only
      rw [ha.dim, ha.mod, getD_map_range hk,
        i64ofU64_of_lt (by omega), i64ofU64_of_lt (by omega),
        i64wrap_of_bounds (by push_cast; omega) (by push_cast; omega)]]
    rw [cast_cppMod hq (by omega)]
    push_cast
    ring
  · rw [sub_zero]

lemma convSum_eq_zero (A B : List ℕ) (d m : ℕ) (h : 2 * d ≤ m + 1) :
    convSum A B d m = 0 := by
  unfold convSum
  apply Finset.sum_eq_zero
  intro j hj
  rw [if_neg]
  have := Finset.mem_range.mp hj
  omega

lemma coeff_listPoly_mul (q d : ℕ) (A B : List ℕ) (m : ℕ) :
    (listPoly q d A * listPoly q d B).coeff m
      = ((convSum A B d m : ℕ) : ZMod q) := by
  have h1 : (listPoly q d A * listPoly q d B).coeff m
      = ∑ k ∈ Finset.range (m + 1),
          (if k < d ∧ k ≤ m ∧ m - k < d
            then (A.getD k 0 : ZMod q) * (B.getD (m - k) 0 : ZMod q) else 0) := by
    rw [Polynomial.coeff_mul, Finset.Nat.sum_antidiagonal_eq_sum_range_succ_mk]
    apply Finset.sum_congr rfl
    intro k hk
    have hk' : k ≤ m := by
      have := Finset.mem_range.mp hk
      omega
    show (listPoly q d A).coeff k * (listPoly q d B).coeff (m - k) = _
    rw [listPoly_coeff, listPoly_coeff]
    simp only [ite_mul, mul_ite, zero_mul, mul_zero]
    split_ifs <;> first | rfl | omega
  have h2 : (∑ k ∈ Finset.range (m + 1),
        (if k < d ∧ k ≤ m ∧ m - k < d
          then (A.getD k 0 : ZMod q) * (B.getD (m - k) 0 : ZMod q) else 0))
      = ∑ k ∈ Finset.range (m + 1 + d),
          (if k < d ∧ k ≤ m ∧ m - k < d
            then (A.getD k 0 : ZMod q) * (B.getD (m - k) 0 : ZMod q) else 0) :=
    Finset.sum_subset (Finset.range_subset.mpr (by omega))
      (fun x _ hnx =>
        if_neg fun hcon => hnx (Finset.mem_range.mpr (by omega)))
  have hconv : ((convSum A B d m : ℕ) : ZMod q)
      = ∑ j ∈ Finset.range (m + 1 + d),
          (if j < d ∧ j ≤ m ∧ m - j < d
            then (A.getD j 0 : ZMod q) * (B.getD (m - j) 0 : ZMod q) else 0) := by
    have h3 : ((convSum A B d m : ℕ) : ZMod q)
        = ∑ j ∈ Finset.range d,
            (if j < d ∧ j ≤ m ∧ m - j < d
              then (A.getD j 0 : ZMod q) * (B.getD (m - j) 0 : ZMod q) else 0) := by
      unfold convSum
      rw [Nat.cast_sum]
      apply Finset.sum_congr rfl
      intro j hj
      have hjd : j < d := Finset.mem_range.mp hj
      rw [apply_ite (Nat.cast : ℕ → ZMod q), Nat.cast_mul, Nat.cast_zero,
        if_congr (show (j ≤ m ∧ m - j < d) ↔ (j < d ∧ j ≤ m ∧ m - j < d) from
          ⟨fun h => ⟨hjd, h.1, h.2⟩, fun h => ⟨h.2.1, h.2.2⟩⟩) rfl rfl]
    rw [h3]
    exact Finset.sum_subset (Finset.range_subset.mpr (by omega))
      (fun x _ hnx => if_neg fun hcon => hnx (Finset.mem_range.mpr hcon.1))
  rw [h1, h2, hconv]

lemma mk_listPoly_mulCore {d q : ℕ} {a b : Poly} (hq : 0 < q) (hq32 : q ≤ 2 ^ 32)
    (ha : InRing d q a) (hb : InRing d q b) :
    AdjoinRoot.mk (Polynomial.X ^ d + 1) (listPoly q d (a.mulCore b).coeffs)
      = AdjoinRoot.mk (Polynomial.X ^ d + 1) (listPoly q d a.coeffs)
        * AdjoinRoot.mk (Polynomial.X ^ d + 1) (listPoly q d b.coeffs) := by
  rw [← map_mul, AdjoinRoot.mk_eq_mk]
  refine ⟨-(listPoly q d ((List.range d).map fun i =>
      convSum a.coeffs b.coeffs d (i + d))), ?_⟩
  have hmain : listPoly q d a.coeffs * listPoly q d b.coeffs
      - listPoly q d (a.mulCore b).coeffs
      = (Polynomial.X ^ d + 1)
        * listPoly q d ((List.range d).map fun i =>
            convSum a.coeffs b.coeffs d (i + d)) := by
    apply Polynomial.ext
    intro m
    rw [Polynomial.coeff_sub, coeff_listPoly_mul, listPoly_coeff,
      add_mul, one_mul, Polynomial.coeff_add, mul_comm (Polynomial.X ^ d),
      Polynomial.coeff_mul_X_pow', listPoly_coeff, listPoly_coeff]
    rcases lt_or_le m d with hm | hm
    · rw [if_pos hm, if_neg (by omega), if_pos hm, getD_map_range hm,
        mulCore_getD m hm hq hq32 ha hb]
      unfold negacyclicRef
      rw [intCast_emod_zmod hq]
      push_cast
      ring
    · rw [if_neg (show ¬m < d from by omega), sub_zero, if_pos hm,
        if_neg (show ¬m < d from by omega), add_zero]
      rcases lt_or_le m (2 * d) with hm2 | hm2
      · rw [if_pos (show m - d < d from by omega),
          getD_map_range (show m - d < d from by omega),
          show m - d + d = m from by omega]
      · rw [if_neg (show ¬(m - d < d) from by omega),
          convSum_eq_zero _ _ _ _ (by omega), Nat.cast_zero]
  linear_combination -hmain

lemma poly_eq_of {p p' : Poly} (h1 : p.coeffs = p'.coeffs)
    (h2 : p.ring_dim = p'.ring_dim) (h3 : p.modulus = p'.modulus) :
    p = p' := by
  cases p
  cases p'
  simp only at h1 h2 h3
  rw [h1, h2, h3]

/-! ## Reduced representatives are determined by their class mod x^d + 1 -/

lemma listPoly_inj {q d : ℕ} (hq : 1 < q) (hd : 0 < d) {l1 l2 : List ℕ}
    (hlen1 : l1.length = d) (hlen2 : l2.length = d)
    (hr1 : ∀ c ∈ l1, c < q) (hr2 : ∀ c ∈ l2, c < q)
    (h : AdjoinRoot.mk (Polynomial.X ^ d + 1) (listPoly q d l1)
        = AdjoinRoot.mk (Polynomial.X ^ d + 1) (listPoly q d l2)) :
    l1 = l2 := by
  haveI : Fact (1 < q) := ⟨hq⟩
  obtain ⟨k, hk⟩ := AdjoinRoot.mk_eq_mk.mp h
  have hmonic : (Polynomial.X ^ d + 1 : Polynomial (ZMod q)).Monic := by
    apply Polynomial.monic_X_pow_add
    rw [Polynomial.degree_one]
    exact_mod_cast hd
  have hdeg : (listPoly q d l1 - listPoly q d l2).degree < (d : ℕ) :=
    (Polynomial.degree_lt_iff_coeff_zero _ d).mpr fun m hm => by
      rw [Polynomial.coeff_sub, listPoly_coeff, listPoly_coeff,
        if_neg (by omega), if_neg (by omega), sub_zero]
  have hk0 : k = 0 := by
    by_contra hk0
    have hfd : (Polynomial.X ^ d + 1 : Polynomial (ZMod q)).degree = d := by
      rw [← Polynomial.C_1, Polynomial.degree_X_pow_add_C hd]
    have hge : (d : WithBot ℕ) ≤ (listPoly q d l1 - listPoly q d l2).degree := by
      rw [hk, mul_comm, hmonic.degree_mul, hfd]
      calc (d : WithBot ℕ) = 0 + (d : ℕ) := (zero_add _).symm
        _ ≤ k.degree + (d : ℕ) :=
            add_le_add_right (Polynomial.zero_le_degree_iff.mpr hk0) _
    exact absurd (lt_of_le_of_lt hge hdeg) (lt_irrefl _)
  have hdiff : listPoly q d l1 = listPoly q d l2 := by
    have h0 : listPoly q d l1 - listPoly q d l2 = 0 := by
      rw [hk, hk0, mul_zero]
    linear_combination h0
  apply List.ext_getElem (by omega)
  intro i hi1 hi2
  have hc := congrArg (fun p => Polynomial.coeff p i) hdiff
  simp only at hc
  rw [listPoly_coeff, listPoly_coeff, if_pos (by omega), if_pos (by omega)] at hc
  have e1 : l1.getD i 0 < q := hr1 _ (getD_mem hi1)
  have e2 : l2.getD i 0 < q := hr2 _ (getD_mem hi2)
  have hv := congrArg ZMod.val hc
  rw [ZMod.val_cast_of_lt e1, ZMod.val_cast_of_lt e2] at hv
  rw [← List.getD_eq_getElem l1 0 hi1, ← List.getD_eq_getElem l2 0 hi2]
  exact hv

/-! ## The unblinding identity (C10) -/

/-- C10 — the exact ring identity behind unblinding: for key material
a, s, e with the public key b = a·s + e, blinding factor r and signing
noise e1, all well-formed over the ring of dimension d > 0 and modulus q
(1 < q ≤ 2^32, so no 64-bit overflow occurs — the test suite's q = 7681
satisfies this), and Y = hashToPolynomial(secret),

  computeSignature(blindSign(Y + a·r), r, b) = s·Y + e1 − r·e :

the mask a·r·s cancels exactly when the third argument is b (the value
the test suite passes), leaving the hashed secret times s plus the small
noise e1 − r·e. -/
theorem unblind_identity (digest : List ℕ → List ℕ)
    (hdig : ∀ bs, (digest bs).length = 32) (d q : ℕ) (hd : 0 < d)
    (hq : 1 < q) (hq32 : q ≤ 2 ^ 32) (a s e r e1 : Poly) (secret : List ℕ)
    (ha : InRing d q a) (hs : InRing d q s) (he : InRing d q e)
    (hr : InRing d q r) (he1 : InRing d q e1) :
    computeSignature
        (blindSign s e1 (computeBlindedMessage digest d q a r secret).1)
        (computeBlindedMessage digest d q a r secret).2
        ((a.mulCore s).addCore e)
      = ((s.mulCore (hashToPolynomial digest d q secret)).addCore e1).subCore
          (r.mulCore e) := by
  have hq0 : 0 < q := by omega
  have hq64 : q < 2 ^ 64 := by omega
  have hY : InRing d q (hashToPolynomial digest d q secret) :=
    hash_inRing digest hdig hq0 secret
  have har : InRing d q (a.mulCore r) := mulCore_inRing hq0 hq64 ha hr
  have hblind : InRing d q ((hashToPolynomial digest d q secret).addCore
      (a.mulCore r)) := addCore_inRing hq0 hY har
  have hsb : InRing d q (s.mulCore ((hashToPolynomial digest d q secret).addCore
      (a.mulCore r))) := mulCore_inRing hq0 hq64 hs hblind
  have hC : InRing d q ((s.mulCore ((hashToPolynomial digest d q secret).addCore
      (a.mulCore r))).addCore e1) := addCore_inRing hq0 hsb he1
  have has : InRing d q (a.mulCore s) := mulCore_inRing hq0 hq64 ha hs
  have hb : InRing d q ((a.mulCore s).addCore e) := addCore_inRing hq0 has he
  have hrb : InRing d q (r.mulCore ((a.mulCore s).addCore e)) :=
    mulCore_inRing hq0 hq64 hr hb
  have hlhs : InRing d q (((s.mulCore ((hashToPolynomial digest d q
      secret).addCore (a.mulCore r))).addCore e1).subCore
        (r.mulCore ((a.mulCore s).addCore e))) :=
    subCore_inRing hq0 hq64 hC hrb
  have hsY : InRing d q (s.mulCore (hashToPolynomial digest d q secret)) :=
    mulCore_inRing hq0 hq64 hs hY
  have hsYe1 : InRing d q ((s.mulCore (hashToPolynomial digest d q
      secret)).addCore e1) := addCore_inRing hq0 hsY he1
  have hre : InRing d q (r.mulCore e) := mulCore_inRing hq0 hq64 hr he
  have hrhs : InRing d q (((s.mulCore (hashToPolynomial digest d q
      secret)).addCore e1).subCore (r.mulCore e)) :=
    subCore_inRing hq0 hq64 hsYe1 hre
  show (((s.mulCore ((hashToPolynomial digest d q secret).addCore
      (a.mulCore r))).addCore e1).subCore
        (r.mulCore ((a.mulCore s).addCore e))) = _
  have hcoeffs : (((s.mulCore ((hashToPolynomial digest d q secret).addCore
      (a.mulCore r))).addCore e1).subCore
        (r.mulCore ((a.mulCore s).addCore e))).coeffs
      = (((s.mulCore (hashToPolynomial digest d q secret)).addCore
          e1).subCore (r.mulCore e)).coeffs := by
    apply listPoly_inj hq hd hlhs.len hrhs.len hlhs.red hrhs.red
    rw [listPoly_subCore hq0 hq32 hC hrb, listPoly_subCore hq0 hq32 hsYe1 hre,
      listPoly_addCore hq0 hq32 hsb he1, listPoly_addCore hq0 hq32 hsY he1,
      map_sub, map_sub, map_add, map_add,
      mk_listPoly_mulCore hq0 hq32 hs hblind,
      mk_listPoly_mulCore hq0 hq32 hr hb,
      mk_listPoly_mulCore hq0 hq32 hs hY,
      mk_listPoly_mulCore hq0 hq32 hr he,
      listPoly_addCore hq0 hq32 hY har,
      listPoly_addCore hq0 hq32 has he,
      map_add, map_add,
      mk_listPoly_mulCore hq0 hq32 ha hr,
      mk_listPoly_mulCore hq0 hq32 ha hs]
    ring
  exact poly_eq_of hcoeffs (hlhs.dim.trans hrhs.dim.symm)
    (hlhs.mod.trans hrhs.mod.symm)

/-- Witness for C10 at a concrete input: d = 1, q = 7681, a = [5],
s = [3], e = [2], r = [4], e1 = [6]. -/
theorem unblind_identity_witness :
    computeSignature
        (blindSign ⟨[3], 1, 7681⟩ ⟨[6], 1, 7681⟩
          (computeBlindedMessage zeroDigest 1 7681 ⟨[5], 1, 7681⟩
            ⟨[4], 1, 7681⟩ [18, 52]).1)
        (computeBlindedMessage zeroDigest 1 7681 ⟨[5], 1, 7681⟩
          ⟨[4], 1, 7681⟩ [18, 52]).2
        ((Poly.mulCore ⟨[5], 1, 7681⟩ ⟨[3], 1, 7681⟩).addCore ⟨[2], 1, 7681⟩)
      = ((Poly.mulCore ⟨[3], 1, 7681⟩
            (hashToPolynomial zeroDigest 1 7681 [18, 52])).addCore
          ⟨[6], 1, 7681⟩).subCore
          (Poly.mulCore ⟨[4], 1, 7681⟩ ⟨[2], 1, 7681⟩) :=
  unblind_identity zeroDigest (fun _ => rfl) 1 7681 (by omega) (by omega)
    (by omega) ⟨[5], 1, 7681⟩ ⟨[3], 1, 7681⟩ ⟨[2], 1, 7681⟩ ⟨[4], 1, 7681⟩
    ⟨[6], 1, 7681⟩ [18, 52]
    ⟨rfl, rfl, rfl, by decide⟩ ⟨rfl, rfl, rfl, by decide⟩
    ⟨rfl, rfl, rfl, by decide⟩ ⟨rfl, rfl, rfl, by decide⟩
    ⟨rfl, rfl, rfl, by decide⟩

end RLWE
